import Mathlib

/-!
Verification of the MFAS (minimum feedback arc set) solver interface of
`gtsam/sfm/MFAS.h` and of the 2-D point primitive of
`gtsam/geometry/Point2.h`, as a shallow embedding in Lean.

Conventions of the embedding:
* C++ `Key` (an integer-like node identifier) is `ℕ`;
* C++ `double` weights are exact rationals `ℚ` (reals `ℝ` for the
  geometric `Point2` primitive, whose `norm` involves a square root);
* `std::map` is an association list, its iteration order being the order
  of the list; results that must not depend on iteration order are proved
  invariant under permutation of the list;
* the member functions of `MFAS` are declared in `MFAS.h` but their
  bodies live outside the shown sources, so they are modelled from the
  specification, as flagged in each doc comment.
-/

namespace gtsam

/-- A directed edge between two nodes, `MFAS::KeyPair` in `MFAS.h`. -/
abbrev KeyPair : Type := ℕ × ℕ

/-- The MFAS problem instance from `MFAS.h`: the node list `nodes_`
(shared with the caller, never mutated) and the directed edge-weight map
`edgeWeights_`. -/
structure MFAS where
  nodes_ : List ℕ
  edgeWeights_ : List (KeyPair × ℚ)
  deriving DecidableEq

/-- The constructor `MFAS(nodes, edgeWeights)` of `MFAS.h` (lines 58-60):
its member-initializer list stores both arguments as given and its body is
empty, so construction is a total function with no validation. -/
def MFAS.fromNodesAndEdges (nodes : List ℕ) (edgeWeights : List (KeyPair × ℚ)) : MFAS :=
  ⟨nodes, edgeWeights⟩

/-- Modelled from the spec: the structural validation the spec's §4.2/§7
demand at construction ("an edge references a node absent from the supplied
node list" must fail fast). The shown constructor performs no such check;
this predicate states the condition the spec says is validated. -/
def edgeEndpointsValid (nodes : List ℕ) (edges : List (KeyPair × ℚ)) : Bool :=
  edges.all fun e => nodes.contains e.1.1 && nodes.contains e.1.2

/-- Modelled from the spec: a fail-fast constructor following the spec's
words, returning `none` exactly when some edge references an absent node
("no partial graph is built"). Used to compare the spec's contract with
the constructor actually shown in `MFAS.h`. -/
def MFAS.fromNodesAndEdgesChecked (nodes : List ℕ) (edges : List (KeyPair × ℚ)) :
    Option MFAS :=
  if edgeEndpointsValid nodes edges then some ⟨nodes, edges⟩ else none

/-- Weighted out-degree of node `n` restricted to the `remaining` nodes:
the sum of the weights of stored edges leaving `n` whose head is still
remaining (spec §4.3 step 1). -/
def outWeightSum (edges : List (KeyPair × ℚ)) (remaining : List ℕ) (n : ℕ) : ℚ :=
  ((edges.filter fun e => e.1.1 == n && remaining.contains e.1.2).map fun e => e.2).sum

/-- Weighted in-degree of node `n` restricted to the `remaining` nodes:
the sum of the weights of stored edges entering `n` whose tail is still
remaining (spec §4.3 step 1). -/
def inWeightSum (edges : List (KeyPair × ℚ)) (remaining : List ℕ) (n : ℕ) : ℚ :=
  ((edges.filter fun e => e.1.2 == n && remaining.contains e.1.1).map fun e => e.2).sum

/-- Greedy score of a remaining node: weighted out-degree minus weighted
in-degree, both restricted to edges between remaining nodes (spec §4.3
step 2). -/
def score (edges : List (KeyPair × ℚ)) (remaining : List ℕ) (n : ℕ) : ℚ :=
  outWeightSum edges remaining n - inWeightSum edges remaining n

/-- Selection of spec §4.3 step 2: the remaining node of maximum score,
ties broken towards the lowest node identifier. -/
def pickBest (sc : ℕ → ℚ) : List ℕ → Option ℕ
  | [] => none
  | n :: rest =>
    match pickBest sc rest with
    | none => some n
    | some m => if sc m < sc n ∨ (sc n = sc m ∧ n < m) then some n else some m

/-- Modelled from the spec: the greedy peeling loop of §4.3 steps 2-5
(the body of `MFAS::computeOrdering` is not among the shown sources).
Each round appends the best remaining node and removes it; the scores of
the next round are taken over the shrunken remaining set, which discards
the weights of every edge touching the removed node. The fuel argument is
the number of rounds still allowed; `computeOrdering` supplies the node
count, which is exactly enough. -/
def orderingAux (edges : List (KeyPair × ℚ)) : ℕ → List ℕ → List ℕ
  | 0, _ => []
  | fuel + 1, remaining =>
    match pickBest (score edges remaining) remaining with
    | none => []
    | some m => m :: orderingAux edges fuel (remaining.erase m)

/-- Modelled from the spec: `MFAS::computeOrdering` (declared `MFAS.h`
lines 83-87, body not among the shown sources), the deterministic greedy
1D MFAS ordering of spec §4.3. -/
def computeOrdering (g : MFAS) : List ℕ :=
  orderingAux g.edgeWeights_ g.nodes_.length g.nodes_

/-- Position of a node in an ordering (spec §4.4's position-of lookup). -/
def position (ordering : List ℕ) (n : ℕ) : ℕ :=
  ordering.indexOf n

/-- Modelled from the spec: `MFAS::computeOutlierWeights` (declared
`MFAS.h` lines 76-81, body not among the shown sources), per spec §4.4:
each stored edge keeps its key and is scored 0 when its tail precedes its
head in the ordering computed for this same graph, and its stored weight
otherwise. -/
def computeOutlierWeights (g : MFAS) : List (KeyPair × ℚ) :=
  let ordering := computeOrdering g
  g.edgeWeights_.map fun e =>
    (e.1, if position ordering e.1.1 < position ordering e.1.2 then 0 else e.2)

/-- Modelled from the spec: the `Unit3` direction primitive (spec §2, §6),
a 3-vector supporting dot-product projection; the real `Unit3` header is
not among the shown sources and only its projection capability is used. -/
structure Unit3 where
  d1 : ℚ
  d2 : ℚ
  d3 : ℚ
  deriving DecidableEq

/-- Modelled from the spec: scalar projection (dot product) of one
direction onto another (spec §6 collaborator capability). -/
def Unit3.dot (a b : Unit3) : ℚ :=
  a.d1 * b.d1 + a.d2 * b.d2 + a.d3 * b.d3

/-- Modelled from the spec: the translation-edges constructor
`MFAS(nodes, relativeTranslations, projectionDirection)` (declared
`MFAS.h` lines 71-73, body not among the shown sources), per spec §4.1:
each measured pair (u,v) with direction d is projected to
w = d · projectionDirection; w ≥ 0 (including exactly 0) stores
(u,v) → w, and w < 0 stores the flipped edge (v,u) → −w. Every measured
pair yields exactly one stored edge, with no filtering. -/
def MFAS.fromTranslationEdges (nodes : List ℕ)
    (relativeTranslations : List (KeyPair × Unit3)) (projectionDirection : Unit3) : MFAS :=
  ⟨nodes, relativeTranslations.map fun e =>
    let w := e.2.dot projectionDirection
    if 0 ≤ w then (e.1, w) else ((e.1.2, e.1.1), -w)⟩

/-! ### The 2-D point primitive of `Point2.h` -/

noncomputable section

/-- The 2-D point of `Point2.h`: private fields `x_`, `y_` (line 35),
with `double` modelled as `ℝ`. -/
structure Point2 where
  x_ : ℝ
  y_ : ℝ

/-- Accessor `Point2::x()` (`Point2.h` line 244). -/
def Point2.x (p : Point2) : ℝ := p.x_

/-- Accessor `Point2::y()` (`Point2.h` line 247). -/
def Point2.y (p : Point2) : ℝ := p.y_

/-- `Point2::operator==` (`Point2.h` line 241): the source reads
`x_ == q.x_ && q.y_ == q.y_`, so the second conjunct compares the right
operand's `y_` with itself. -/
def Point2.eqOp (p q : Point2) : Prop := p.x_ = q.x_ ∧ q.y_ = q.y_

/-- `Point2::operator/` (`Point2.h` line 234): componentwise division by
a scalar. -/
def Point2.divScalar (p : Point2) (q : ℝ) : Point2 := ⟨p.x_ / q, p.y_ / q⟩

/-- `Point2::operator*` (`Point2.h` line 231): componentwise scalar
multiplication. -/
def Point2.mulScalar (p : Point2) (s : ℝ) : Point2 := ⟨p.x_ * s, p.y_ * s⟩

/-- Modelled from the spec: `Point2::norm` is declared (`Point2.h` line
219) but its body is not among the shown sources; the spec (§6) names it
the norm of the point, i.e. the Euclidean norm. -/
def Point2.norm (p : Point2) : ℝ := Real.sqrt (p.x_ ^ 2 + p.y_ ^ 2)

/-- `Point2::unit()` (`Point2.h` line 216): `*this / norm()`, with no
guard against a zero norm. -/
def Point2.unit (p : Point2) : Point2 := p.divScalar p.norm

end

/-! ### Properties of the greedy selection -/

theorem pickBest_isSome {sc : ℕ → ℚ} {l : List ℕ} (h : l ≠ []) :
    (pickBest sc l).isSome := by
  cases l with
  | nil => exact absurd rfl h
  | cons n rest =>
    cases hr : pickBest sc rest with
    | none => simp [pickBest, hr]
    | some m =>
      by_cases hc : sc m < sc n ∨ (sc n = sc m ∧ n < m) <;>
        simp [pickBest, hr, hc]

theorem pickBest_eq_none {sc : ℕ → ℚ} {l : List ℕ} (h : pickBest sc l = none) :
    l = [] := by
  by_contra hne
  have := @pickBest_isSome sc l hne
  rw [h] at this
  simp at this

theorem pickBest_mem {sc : ℕ → ℚ} {l : List ℕ} {m : ℕ} (h : pickBest sc l = some m) :
    m ∈ l := by
  induction l with
  | nil => simp [pickBest] at h
  | cons n rest ih =>
    cases hr : pickBest sc rest with
    | none =>
      simp only [pickBest, hr, Option.some.injEq] at h
      subst h
      exact List.mem_cons_self _ _
    | some m2 =>
      simp only [pickBest, hr] at h
      by_cases hc : sc m2 < sc n ∨ (sc n = sc m2 ∧ n < m2)
      · rw [if_pos hc] at h
        simp only [Option.some.injEq] at h
        subst h
        exact List.mem_cons_self _ _
      · rw [if_neg hc] at h
        simp only [Option.some.injEq] at h
        subst h
        exact List.mem_cons_of_mem n (ih hr)

theorem pickBest_le {sc : ℕ → ℚ} {l : List ℕ} {m : ℕ} (h : pickBest sc l = some m) :
    ∀ x ∈ l, sc x ≤ sc m := by
  induction l generalizing m with
  | nil => simp [pickBest] at h
  | cons n rest ih =>
    cases hr : pickBest sc rest with
    | none =>
      simp only [pickBest, hr, Option.some.injEq] at h
      subst h
      have : rest = [] := pickBest_eq_none hr
      subst this
      intro x hx
      simp at hx
      simp [hx]
    | some m2 =>
      simp only [pickBest, hr] at h
      by_cases hc : sc m2 < sc n ∨ (sc n = sc m2 ∧ n < m2)
      · rw [if_pos hc] at h
        simp only [Option.some.injEq] at h
        subst h
        intro x hx
        rcases List.mem_cons.mp hx with hx | hx
        · simp [hx]
        · have h1 : sc x ≤ sc m2 := ih hr x hx
          have h2 : sc m2 ≤ sc n := by
            rcases hc with hc | hc
            · exact le_of_lt hc
            · exact le_of_eq hc.1.symm
          exact le_trans h1 h2
      · rw [if_neg hc] at h
        simp only [Option.some.injEq] at h
        subst h
        intro x hx
        rcases List.mem_cons.mp hx with hx | hx
        · subst hx
          push_neg at hc
          exact hc.1
        · exact ih hr x hx

theorem pickBest_tiebreak {sc : ℕ → ℚ} {l : List ℕ} {m : ℕ}
    (h : pickBest sc l = some m) : ∀ x ∈ l, sc x = sc m → m ≤ x := by
  induction l generalizing m with
  | nil => simp [pickBest] at h
  | cons n rest ih =>
    cases hr : pickBest sc rest with
    | none =>
      simp only [pickBest, hr, Option.some.injEq] at h
      subst h
      have : rest = [] := pickBest_eq_none hr
      subst this
      intro x hx
      simp at hx
      simp [hx]
    | some m2 =>
      simp only [pickBest, hr] at h
      by_cases hc : sc m2 < sc n ∨ (sc n = sc m2 ∧ n < m2)
      · rw [if_pos hc] at h
        simp only [Option.some.injEq] at h
        subst h
        intro x hx hsc
        rcases List.mem_cons.mp hx with hx | hx
        · simp [hx]
        · rcases hc with hc | hc
          · have : sc x ≤ sc m2 := pickBest_le hr x hx
            exact absurd hsc (by linarith)
          · have hx2 : m2 ≤ x := ih hr x hx (by rw [hsc, hc.1])
            exact le_of_lt (lt_of_lt_of_le hc.2 hx2)
      · rw [if_neg hc] at h
        simp only [Option.some.injEq] at h
        subst h
        intro x hx hsc
        rcases List.mem_cons.mp hx with hx | hx
        · subst hx
          push_neg at hc
          exact hc.2 hsc
        · exact ih hr x hx hsc

theorem pickBest_congr {sc1 sc2 : ℕ → ℚ} (hsc : sc1 = sc2) (l : List ℕ) :
    pickBest sc1 l = pickBest sc2 l := by
  rw [hsc]

theorem pickBest_perm {sc : ℕ → ℚ} {l1 l2 : List ℕ} (h : l1.Perm l2) :
    pickBest sc l1 = pickBest sc l2 := by
  cases h1 : pickBest sc l1 with
  | none =>
    have : l1 = [] := pickBest_eq_none h1
    subst this
    have : l2 = [] := h.nil_eq.symm
    subst this
    rfl
  | some m1 =>
    cases h2 : pickBest sc l2 with
    | none =>
      have : l2 = [] := pickBest_eq_none h2
      subst this
      have : l1 = [] := h.eq_nil
      subst this
      simp [pickBest] at h1
    | some m2 =>
      have hm1 : m1 ∈ l2 := h.mem_iff.mp (pickBest_mem h1)
      have hm2 : m2 ∈ l1 := h.mem_iff.mpr (pickBest_mem h2)
      have hle1 : sc m1 ≤ sc m2 := pickBest_le h2 m1 hm1
      have hle2 : sc m2 ≤ sc m1 := pickBest_le h1 m2 hm2
      have heq : sc m1 = sc m2 := le_antisymm hle1 hle2
      have ha : m2 ≤ m1 := pickBest_tiebreak h2 m1 hm1 heq
      have hb : m1 ≤ m2 := pickBest_tiebreak h1 m2 hm2 heq.symm
      rw [Nat.le_antisymm hb ha]

/-! ### Properties of the greedy ordering loop -/

theorem orderingAux_perm (edges : List (KeyPair × ℚ)) :
    ∀ (fuel : ℕ) (remaining : List ℕ), remaining.length ≤ fuel →
      (orderingAux edges fuel remaining).Perm remaining := by
  intro fuel
  induction fuel with
  | zero =>
    intro remaining h
    have : remaining = [] := List.length_eq_zero.mp (Nat.le_zero.mp h)
    subst this
    simp [orderingAux]
  | succ fuel ih =>
    intro remaining h
    simp only [orderingAux]
    cases hp : pickBest (score edges remaining) remaining with
    | none =>
      have : remaining = [] := pickBest_eq_none hp
      subst this
      simp
    | some m =>
      have hm : m ∈ remaining := pickBest_mem hp
      have hlen : (remaining.erase m).length = remaining.length - 1 :=
        List.length_erase_of_mem hm
      have hpos : 1 ≤ remaining.length := List.length_pos.mpr (List.ne_nil_of_mem hm)
      have hle : (remaining.erase m).length ≤ fuel := by omega
      have hperm := ih (remaining.erase m) hle
      exact (hperm.cons m).trans (List.perm_cons_erase hm).symm

theorem score_congr_perm {edges1 edges2 : List (KeyPair × ℚ)} (h : edges1.Perm edges2)
    (remaining : List ℕ) (n : ℕ) :
    score edges1 remaining n = score edges2 remaining n := by
  unfold score outWeightSum inWeightSum
  rw [((h.filter _).map _).sum_eq, ((h.filter _).map _).sum_eq]

theorem orderingAux_congr_perm {edges1 edges2 : List (KeyPair × ℚ)}
    (h : edges1.Perm edges2) :
    ∀ (fuel : ℕ) (remaining : List ℕ),
      orderingAux edges1 fuel remaining = orderingAux edges2 fuel remaining := by
  intro fuel
  induction fuel with
  | zero => intro remaining; simp [orderingAux]
  | succ fuel ih =>
    intro remaining
    have hsc : score edges1 remaining = score edges2 remaining :=
      funext fun n => score_congr_perm h remaining n
    simp only [orderingAux, hsc]
    cases pickBest (score edges2 remaining) remaining with
    | none => rfl
    | some m => simp [ih]

/-! ### Claim theorems for the MFAS solver -/

/-- C2: for every input graph (any node list and any edge-weight map),
`computeOrdering` returns a permutation of the node list: it contains
each input node exactly once, has length equal to the node count, and has
no duplicates whenever the node list has none. -/
theorem computeOrdering_permutation (g : MFAS) :
    (computeOrdering g).Perm g.nodes_ ∧
    (computeOrdering g).length = g.nodes_.length ∧
    (g.nodes_.Nodup → (computeOrdering g).Nodup) := by
  have hp : (computeOrdering g).Perm g.nodes_ :=
    orderingAux_perm g.edgeWeights_ g.nodes_.length g.nodes_ le_rfl
  exact ⟨hp, hp.length_eq, fun hn => hp.symm.nodup hn⟩

/-- Witness for C2 on the spec's 3-cycle scenario. -/
theorem computeOrdering_permutation_witness :
    ([10, 20, 30] : List ℕ).Nodup ∧
    (computeOrdering (MFAS.mk [10, 20, 30]
      [((10, 20), 1), ((20, 30), 1), ((30, 10), 1)])).Perm [10, 20, 30] ∧
    (computeOrdering (MFAS.mk [10, 20, 30]
      [((10, 20), 1), ((20, 30), 1), ((30, 10), 1)])).Nodup :=
  ⟨by decide,
   (computeOrdering_permutation (MFAS.mk [10, 20, 30]
      [((10, 20), 1), ((20, 30), 1), ((30, 10), 1)])).1,
   (computeOrdering_permutation (MFAS.mk [10, 20, 30]
      [((10, 20), 1), ((20, 30), 1), ((30, 10), 1)])).2.2 (by decide)⟩

/-- C5 counterexample: the nodes-plus-edgeWeights constructor shown in
`MFAS.h` (lines 58-60) is a pure member-initializer; on an input whose
edge (1,2) references nodes absent from the node list [0] it raises no
error and builds the full graph, whereas the spec's checked constructor
would reject this input. -/
theorem construction_fails_fast_cex :
    edgeEndpointsValid [0] [((1, 2), (1 : ℚ))] = false ∧
    MFAS.fromNodesAndEdgesChecked [0] [((1, 2), (1 : ℚ))] = none ∧
    MFAS.fromNodesAndEdges [0] [((1, 2), (1 : ℚ))] =
      MFAS.mk [0] [((1, 2), (1 : ℚ))] := by
  decide

/-- C5 amended: the constructor performs no structural validation: even
when some edge references a node absent from the node list (so the spec's
check fails), construction succeeds and stores the node list and the
edge-weight map unchanged — the opposite of failing fast. -/
theorem construction_no_validation (nodes : List ℕ) (edges : List (KeyPair × ℚ))
    (h : edgeEndpointsValid nodes edges = false) :
    (MFAS.fromNodesAndEdges nodes edges).nodes_ = nodes ∧
    (MFAS.fromNodesAndEdges nodes edges).edgeWeights_ = edges ∧
    MFAS.fromNodesAndEdgesChecked nodes edges = none := by
  refine ⟨rfl, rfl, ?_⟩
  simp [MFAS.fromNodesAndEdgesChecked, h]

/-- Witness for the amended C5. -/
theorem construction_no_validation_witness :
    edgeEndpointsValid [3] [((4, 5), (2 : ℚ))] = false ∧
    ((MFAS.fromNodesAndEdges [3] [((4, 5), (2 : ℚ))]).nodes_ = [3] ∧
     (MFAS.fromNodesAndEdges [3] [((4, 5), (2 : ℚ))]).edgeWeights_ =
       [((4, 5), (2 : ℚ))] ∧
     MFAS.fromNodesAndEdgesChecked [3] [((4, 5), (2 : ℚ))] = none) :=
  ⟨by decide, construction_no_validation [3] [((4, 5), (2 : ℚ))] (by decide)⟩

/-- C6: `computeOrdering` is deterministic: two graphs with the same node
list and the same edge-weight map (the map possibly iterated in another
order, i.e. any permutation of the stored entries) produce identical
orderings; in particular two calls on one instance coincide. -/
theorem computeOrdering_deterministic (g1 g2 : MFAS)
    (hn : g1.nodes_ = g2.nodes_) (he : g1.edgeWeights_.Perm g2.edgeWeights_) :
    computeOrdering g1 = computeOrdering g2 := by
  unfold computeOrdering
  rw [hn]
  exact orderingAux_congr_perm he _ _

/-- Witness for C6: the same two-edge graph stored in two iteration
orders yields the same ordering. -/
theorem computeOrdering_deterministic_witness :
    (MFAS.mk [1, 2] [((1, 2), 3), ((2, 1), 5)]).nodes_ =
      (MFAS.mk [1, 2] [((2, 1), 5), ((1, 2), 3)]).nodes_ ∧
    (MFAS.mk [1, 2] [((1, 2), 3), ((2, 1), 5)]).edgeWeights_.Perm
      (MFAS.mk [1, 2] [((2, 1), 5), ((1, 2), 3)]).edgeWeights_ ∧
    computeOrdering (MFAS.mk [1, 2] [((1, 2), 3), ((2, 1), 5)]) =
      computeOrdering (MFAS.mk [1, 2] [((2, 1), 5), ((1, 2), 3)]) :=
  ⟨rfl, List.Perm.swap _ _ _,
   computeOrdering_deterministic _ _ rfl (List.Perm.swap _ _ _)⟩

/-- C8: on the empty graph (no nodes, no edges) the ordering is the empty
sequence and the outlier map is empty; both computations are total, so no
error is raised. -/
theorem empty_graph_ok :
    computeOrdering (MFAS.fromNodesAndEdges [] []) = [] ∧
    computeOutlierWeights (MFAS.fromNodesAndEdges [] []) = [] :=
  ⟨rfl, rfl⟩


/-- C9: `Point2::operator==` compares only x-coordinates: it holds
exactly when the x-coordinates agree — its second conjunct compares the
right operand's y-coordinate with itself, so the left operand's
y-coordinate is never examined and points differing only in y compare
equal. -/
theorem point2_eq_compares_only_x (p q : Point2) :
    Point2.eqOp p q ↔ p.x = q.x :=
  ⟨fun h => h.1, fun h => ⟨h, rfl⟩⟩

/-- C10: `Point2::unit()` computes `*this / norm()` with no zero-norm
guard: whenever the norm is nonzero the division is well defined and the
result is the point scaled by the reciprocal of its norm, while at the
origin the divisor `norm()` is exactly zero, so the computation divides
by zero. -/
theorem point2_unit_no_zero_guard (p : Point2) (h : p.norm ≠ 0) :
    p.unit = p.divScalar p.norm ∧
    p.unit = p.mulScalar (1 / p.norm) ∧
    (p.unit.x_ * p.norm = p.x_ ∧ p.unit.y_ * p.norm = p.y_) ∧
    (Point2.mk 0 0).norm = 0 := by
  refine ⟨rfl, ?_, ⟨?_, ?_⟩, ?_⟩
  · unfold Point2.unit Point2.divScalar Point2.mulScalar
    simp [div_eq_mul_inv, one_div]
  · unfold Point2.unit Point2.divScalar
    exact div_mul_cancel₀ _ h
  · unfold Point2.unit Point2.divScalar
    exact div_mul_cancel₀ _ h
  · unfold Point2.norm
    norm_num

/-- C1: `computeOutlierWeights` keys its output identically to the edge
map with no edge missing or duplicated, and scores each stored edge
(tail, head, weight) exactly 0 when the tail precedes the head in the
ordering computed for this same graph and exactly the stored weight
otherwise. -/
theorem computeOutlierWeights_spec (g : MFAS) :
    (computeOutlierWeights g).map Prod.fst = g.edgeWeights_.map Prod.fst ∧
    (computeOutlierWeights g).length = g.edgeWeights_.length ∧
    ∀ tail hd w, ((tail, hd), w) ∈ g.edgeWeights_ →
      (position (computeOrdering g) tail < position (computeOrdering g) hd →
        ((tail, hd), (0 : ℚ)) ∈ computeOutlierWeights g) ∧
      (¬ position (computeOrdering g) tail < position (computeOrdering g) hd →
        ((tail, hd), w) ∈ computeOutlierWeights g) := by
  refine ⟨?_, ?_, ?_⟩
  · simp only [computeOutlierWeights, List.map_map]
    rfl
  · simp [computeOutlierWeights]
  · intro tail hd w hmem
    have hmap := List.mem_map_of_mem
      (fun e : KeyPair × ℚ =>
        (e.1, if position (computeOrdering g) e.1.1 < position (computeOrdering g) e.1.2
          then (0 : ℚ) else e.2)) hmem
    constructor
    · intro hlt
      have h2 : ((tail, hd),
          if position (computeOrdering g) tail < position (computeOrdering g) hd
            then (0 : ℚ) else w) ∈ computeOutlierWeights g := hmap
      rwa [if_pos hlt] at h2
    · intro hge
      have h2 : ((tail, hd),
          if position (computeOrdering g) tail < position (computeOrdering g) hd
            then (0 : ℚ) else w) ∈ computeOutlierWeights g := hmap
      rwa [if_neg hge] at h2

/-- Witness for C1 on the spec's 3-cycle scenario: the forward edge
(10,20) scores 0 and the cycle-closing edge (30,10) keeps its weight. -/
theorem computeOutlierWeights_spec_witness :
    (((10, 20), (1 : ℚ)) ∈
      (MFAS.mk [10, 20, 30] [((10, 20), 1), ((20, 30), 1), ((30, 10), 1)]).edgeWeights_) ∧
    (((30, 10), (1 : ℚ)) ∈
      (MFAS.mk [10, 20, 30] [((10, 20), 1), ((20, 30), 1), ((30, 10), 1)]).edgeWeights_) ∧
    (((10, 20), (0 : ℚ)) ∈ computeOutlierWeights
      (MFAS.mk [10, 20, 30] [((10, 20), 1), ((20, 30), 1), ((30, 10), 1)])) ∧
    (((30, 10), (1 : ℚ)) ∈ computeOutlierWeights
      (MFAS.mk [10, 20, 30] [((10, 20), 1), ((20, 30), 1), ((30, 10), 1)])) := by
  have hord : computeOrdering
      (MFAS.mk [10, 20, 30] [((10, 20), 1), ((20, 30), 1), ((30, 10), 1)]) =
      [10, 20, 30] := by
    norm_num [computeOrdering, orderingAux, pickBest, score, outWeightSum, inWeightSum]
  refine ⟨by decide, by decide, ?_, ?_⟩
  · exact ((computeOutlierWeights_spec
      (MFAS.mk [10, 20, 30] [((10, 20), 1), ((20, 30), 1), ((30, 10), 1)])).2.2
      10 20 1 (by decide)).1 (by rw [hord]; decide)
  · exact ((computeOutlierWeights_spec
      (MFAS.mk [10, 20, 30] [((10, 20), 1), ((20, 30), 1), ((30, 10), 1)])).2.2
      30 10 1 (by decide)).2 (by rw [hord]; decide)

/-- C3: at every iteration of the greedy loop behind `computeOrdering`,
the node appended next is a remaining node whose score (weighted
out-degree minus weighted in-degree over edges between remaining nodes)
is maximum among the remaining nodes, ties broken towards the lowest node
identifier; the selected node is then removed, the next iteration scoring
only the shrunken remaining set, until no node remains. -/
theorem computeOrdering_greedy_step (g : MFAS) (fuel : ℕ) (remaining : List ℕ)
    (h : remaining ≠ []) :
    computeOrdering g = orderingAux g.edgeWeights_ g.nodes_.length g.nodes_ ∧
    ∃ m, pickBest (score g.edgeWeights_ remaining) remaining = some m ∧
      m ∈ remaining ∧
      (∀ n ∈ remaining,
        score g.edgeWeights_ remaining n ≤ score g.edgeWeights_ remaining m) ∧
      (∀ n ∈ remaining,
        score g.edgeWeights_ remaining n = score g.edgeWeights_ remaining m → m ≤ n) ∧
      orderingAux g.edgeWeights_ (fuel + 1) remaining =
        m :: orderingAux g.edgeWeights_ fuel (remaining.erase m) := by
  refine ⟨rfl, ?_⟩
  obtain ⟨m, hm⟩ :=
    Option.isSome_iff_exists.mp (@pickBest_isSome (score g.edgeWeights_ remaining) remaining h)
  refine ⟨m, hm, pickBest_mem hm, pickBest_le hm, pickBest_tiebreak hm, ?_⟩
  simp only [orderingAux, hm]

/-- Witness for C3 on a two-node graph. -/
theorem computeOrdering_greedy_step_witness :
    ([1, 2] : List ℕ) ≠ [] ∧
    (computeOrdering (MFAS.mk [1, 2] [((1, 2), 3)]) =
      orderingAux (MFAS.mk [1, 2] [((1, 2), 3)]).edgeWeights_
        (MFAS.mk [1, 2] [((1, 2), 3)]).nodes_.length
        (MFAS.mk [1, 2] [((1, 2), 3)]).nodes_ ∧
     ∃ m, pickBest (score (MFAS.mk [1, 2] [((1, 2), 3)]).edgeWeights_ [1, 2]) [1, 2] =
        some m ∧
      m ∈ [1, 2] ∧
      (∀ n ∈ [1, 2],
        score (MFAS.mk [1, 2] [((1, 2), 3)]).edgeWeights_ [1, 2] n ≤
          score (MFAS.mk [1, 2] [((1, 2), 3)]).edgeWeights_ [1, 2] m) ∧
      (∀ n ∈ [1, 2],
        score (MFAS.mk [1, 2] [((1, 2), 3)]).edgeWeights_ [1, 2] n =
          score (MFAS.mk [1, 2] [((1, 2), 3)]).edgeWeights_ [1, 2] m → m ≤ n) ∧
      orderingAux (MFAS.mk [1, 2] [((1, 2), 3)]).edgeWeights_ (1 + 1) [1, 2] =
        m :: orderingAux (MFAS.mk [1, 2] [((1, 2), 3)]).edgeWeights_ 1
          (([1, 2] : List ℕ).erase m)) :=
  ⟨by decide, computeOrdering_greedy_step (MFAS.mk [1, 2] [((1, 2), 3)]) 1 [1, 2]
    (by decide)⟩

/-- C4: the translation-edges constructor stores, for each measured pair
(u,v) with projected weight w = d(u,v) · referenceDirection, exactly one
directed edge: (u,v) → w when w ≥ 0 (including w = 0) and (v,u) → −w when
w < 0, in which case no (u,v) entry exists (provided (u,v) is measured
once and (v,u) is not measured, as the spec's unordered-pair data model
guarantees); every measured pair yields exactly one stored edge. -/
theorem fromTranslationEdges_sign_flip (nodes : List ℕ)
    (rels : List (KeyPair × Unit3)) (proj : Unit3) (u v : ℕ) (d : Unit3)
    (hmem : ((u, v), d) ∈ rels) :
    (MFAS.fromTranslationEdges nodes rels proj).edgeWeights_.length = rels.length ∧
    (0 ≤ d.dot proj →
      ((u, v), d.dot proj) ∈ (MFAS.fromTranslationEdges nodes rels proj).edgeWeights_) ∧
    (d.dot proj < 0 →
      ((v, u), -(d.dot proj)) ∈
        (MFAS.fromTranslationEdges nodes rels proj).edgeWeights_) ∧
    (d.dot proj < 0 →
      (∀ a b d2, ((a, b), d2) ∈ rels → ((a, b) = (u, v) → d2 = d) ∧ (a, b) ≠ (v, u)) →
      ∀ w, ((u, v), w) ∉ (MFAS.fromTranslationEdges nodes rels proj).edgeWeights_) := by
  refine ⟨by simp [MFAS.fromTranslationEdges], ?_, ?_, ?_⟩
  · intro h0
    have hmap := List.mem_map_of_mem
      (fun e : KeyPair × Unit3 =>
        if 0 ≤ e.2.dot proj then (e.1, e.2.dot proj)
        else ((e.1.2, e.1.1), -(e.2.dot proj))) hmem
    have h2 : (if 0 ≤ d.dot proj then ((u, v), d.dot proj)
        else ((v, u), -(d.dot proj))) ∈
        (MFAS.fromTranslationEdges nodes rels proj).edgeWeights_ := hmap
    rwa [if_pos h0] at h2
  · intro hneg
    have hmap := List.mem_map_of_mem
      (fun e : KeyPair × Unit3 =>
        if 0 ≤ e.2.dot proj then (e.1, e.2.dot proj)
        else ((e.1.2, e.1.1), -(e.2.dot proj))) hmem
    have h2 : (if 0 ≤ d.dot proj then ((u, v), d.dot proj)
        else ((v, u), -(d.dot proj))) ∈
        (MFAS.fromTranslationEdges nodes rels proj).edgeWeights_ := hmap
    rwa [if_neg (not_le.mpr hneg)] at h2
  · intro hneg huniq w hw
    have hw2 : ((u, v), w) ∈ rels.map
        (fun e : KeyPair × Unit3 =>
          if 0 ≤ e.2.dot proj then (e.1, e.2.dot proj)
          else ((e.1.2, e.1.1), -(e.2.dot proj))) := hw
    obtain ⟨e, he, hfe⟩ := List.mem_map.mp hw2
    by_cases h0 : 0 ≤ e.2.dot proj
    · rw [if_pos h0] at hfe
      have hkey : e.1 = (u, v) := congrArg Prod.fst hfe
      have hd : e.2 = d :=
        (huniq e.1.1 e.1.2 e.2 he).1 (by rw [← hkey])
      rw [hd] at h0
      exact absurd hneg (not_lt.mpr h0)
    · rw [if_neg h0] at hfe
      have hkey : (e.1.2, e.1.1) = (u, v) := congrArg Prod.fst hfe
      have : e.1 = (v, u) := by
        have h1 : e.1.2 = u := congrArg Prod.fst hkey
        have h2 : e.1.1 = v := congrArg Prod.snd hkey
        exact Prod.ext h2 h1
      exact absurd this (huniq e.1.1 e.1.2 e.2 he).2

/-- Witness for C4 on the spec's concrete scenario 3: projected weight
−2 stores the flipped edge (1,0) → 2 and no (0,1) entry. -/
theorem fromTranslationEdges_sign_flip_witness :
    (((0, 1), Unit3.mk (-2) 0 0) ∈ [((0, 1), Unit3.mk (-2) 0 0)]) ∧
    ((Unit3.mk (-2) 0 0).dot (Unit3.mk 1 0 0) < 0) ∧
    (((1, 0), -((Unit3.mk (-2) 0 0).dot (Unit3.mk 1 0 0))) ∈
      (MFAS.fromTranslationEdges [0, 1] [((0, 1), Unit3.mk (-2) 0 0)]
        (Unit3.mk 1 0 0)).edgeWeights_) ∧
    (((0, 1), (-2 : ℚ)) ∉
      (MFAS.fromTranslationEdges [0, 1] [((0, 1), Unit3.mk (-2) 0 0)]
        (Unit3.mk 1 0 0)).edgeWeights_) := by
  have hdot : (Unit3.mk (-2) 0 0).dot (Unit3.mk 1 0 0) < 0 := by
    norm_num [Unit3.dot]
  have hmem : ((0, 1), Unit3.mk (-2) 0 0) ∈ [((0, 1), Unit3.mk (-2) 0 0)] := by
    simp
  have huniq : ∀ a b d2, ((a, b), d2) ∈ [((0, 1), Unit3.mk (-2) 0 0)] →
      ((a, b) = (0, 1) → d2 = Unit3.mk (-2) 0 0) ∧ (a, b) ≠ (1, 0) := by
    intro a b d2 hm
    rw [List.mem_singleton] at hm
    have h1 : (a, b) = ((0 : ℕ), (1 : ℕ)) := congrArg Prod.fst hm
    have h2 : d2 = Unit3.mk (-2) 0 0 := congrArg Prod.snd hm
    exact ⟨fun _ => h2, by rw [h1]; decide⟩
  exact ⟨hmem, hdot,
    (fromTranslationEdges_sign_flip [0, 1] [((0, 1), Unit3.mk (-2) 0 0)]
      (Unit3.mk 1 0 0) 0 1 (Unit3.mk (-2) 0 0) hmem).2.2.1 hdot,
    (fromTranslationEdges_sign_flip [0, 1] [((0, 1), Unit3.mk (-2) 0 0)]
      (Unit3.mk 1 0 0) 0 1 (Unit3.mk (-2) 0 0) hmem).2.2.2 hdot huniq (-2)⟩

/-- C7: every edge weight stored by the translation-edges constructor is
non-negative; the graph is immutable after construction (every operation
of the embedding is a pure function of the graph), so the invariant is
preserved. -/
theorem fromTranslationEdges_weights_nonneg (nodes : List ℕ)
    (rels : List (KeyPair × Unit3)) (proj : Unit3) (e : KeyPair × ℚ)
    (he : e ∈ (MFAS.fromTranslationEdges nodes rels proj).edgeWeights_) :
    0 ≤ e.2 := by
  have he2 : e ∈ rels.map
      (fun r : KeyPair × Unit3 =>
        if 0 ≤ r.2.dot proj then (r.1, r.2.dot proj)
        else ((r.1.2, r.1.1), -(r.2.dot proj))) := he
  obtain ⟨r, _, hre⟩ := List.mem_map.mp he2
  by_cases h0 : 0 ≤ r.2.dot proj
  · rw [if_pos h0] at hre
    rw [← hre]
    exact h0
  · rw [if_neg h0] at hre
    rw [← hre]
    simp only []
    linarith [not_le.mp h0]

/-- Witness for C7: the flipped edge of scenario 3 carries weight 2 ≥ 0. -/
theorem fromTranslationEdges_weights_nonneg_witness :
    (((1, 0), (2 : ℚ)) ∈
      (MFAS.fromTranslationEdges [0, 1] [((0, 1), Unit3.mk (-2) 0 0)]
        (Unit3.mk 1 0 0)).edgeWeights_) ∧
    (0 : ℚ) ≤ ((1, 0), (2 : ℚ)).2 := by
  have hmem : ((1, 0), (2 : ℚ)) ∈
      (MFAS.fromTranslationEdges [0, 1] [((0, 1), Unit3.mk (-2) 0 0)]
        (Unit3.mk 1 0 0)).edgeWeights_ := by
    norm_num [MFAS.fromTranslationEdges, Unit3.dot]
  exact ⟨hmem,
    fromTranslationEdges_weights_nonneg [0, 1] [((0, 1), Unit3.mk (-2) 0 0)]
      (Unit3.mk 1 0 0) ((1, 0), 2) hmem⟩

/-- Witness for C10 at the point (3,4), whose norm is 5. -/
theorem point2_unit_no_zero_guard_witness :
    (Point2.mk 3 4).norm ≠ 0 ∧
    ((Point2.mk 3 4).unit = (Point2.mk 3 4).divScalar (Point2.mk 3 4).norm ∧
     (Point2.mk 3 4).unit = (Point2.mk 3 4).mulScalar (1 / (Point2.mk 3 4).norm) ∧
     ((Point2.mk 3 4).unit.x_ * (Point2.mk 3 4).norm = (Point2.mk 3 4).x_ ∧
      (Point2.mk 3 4).unit.y_ * (Point2.mk 3 4).norm = (Point2.mk 3 4).y_) ∧
     (Point2.mk 0 0).norm = 0) := by
  have h5 : (Point2.mk 3 4).norm = 5 := by
    unfold Point2.norm
    rw [show ((3 : ℝ) ^ 2 + 4 ^ 2) = 5 ^ 2 by norm_num]
    exact Real.sqrt_sq (by norm_num)
  have hne : (Point2.mk 3 4).norm ≠ 0 := by rw [h5]; norm_num
  exact ⟨hne, point2_unit_no_zero_guard (Point2.mk 3 4) hne⟩

end gtsam
